import Mathlib

/-!
Verification of the text-splitting core of `extract_and_save.py`.

Strings are embedded as `List Char` (a Python `str` is a sequence of Unicode
code points).  The three pure functions of the repository are translated
directly:

* `sanitize_filename`  (source lines 18–26)
* `split_text_into_parts`  (source lines 28–81)
* `determine_num_parts`  (source lines 83–96)

Python's real-valued division `total_chars / num_parts` is modelled exactly:
the quotient is carried as an explicit numerator/denominator pair `Frac`
whose denominator is positive at every use, and the comparison
`x ≤ num / den` is performed as `x * den ≤ num`, which is equivalent for a
positive denominator.  `math.ceil(a / b)` is computed by exact integer
arithmetic (`ceilDiv`) and proved equal to `⌈(a : ℚ) / b⌉`.  A Python
`ZeroDivisionError` is modelled by an `Option` result of `none`.
-/

namespace ExtractPdf

abbrev Str := List Char

/-- Whitespace characters recognised by Python's `str.strip` / `\s`
(ASCII subset: space, tab, newline, carriage return, vertical tab, form feed). -/
def isWs (c : Char) : Bool :=
  c = ' ' || c = '\t' || c = '\n' || c = '\r' || c = '\x0b' || c = '\x0c'

/-- The non-whitespace characters of a string, in order. -/
def nonWs (s : Str) : Str := s.filter (fun c => !isWs c)

/-- Remove leading whitespace (Python `str.lstrip`). -/
def lstrip (s : Str) : Str := s.dropWhile isWs

/-- Remove trailing whitespace (Python `str.rstrip`). -/
def rstrip (s : Str) : Str := (s.reverse.dropWhile isWs).reverse

/-- Python `str.strip`. -/
def strip (s : Str) : Str := rstrip (lstrip s)

/-- Prepend a character to the first fragment of a fragment list. -/
def consHead (c : Char) : List Str → List Str
  | [] => [[c]]
  | h :: t => (c :: h) :: t

/-- Python `text.split('\n')`. -/
def splitNl : Str → List Str
  | [] => [[]]
  | c :: rest => if c = '\n' then [] :: splitNl rest else consHead c (splitNl rest)

/-- Python `text.split('\n\n')` (leftmost, non-overlapping separator matches). -/
def splitNl2 : Str → List Str
  | [] => [[]]
  | [c] => [[c]]
  | c :: d :: rest =>
    if c = '\n' ∧ d = '\n' then [] :: splitNl2 rest
    else consHead c (splitNl2 (d :: rest))

/-- The single-newline separator. -/
def sepNl : Str := ['\n']

/-- The paragraph separator `"\n\n"`. -/
def sepNl2 : Str := ['\n', '\n']

/-- Python `sep.join(l)`. -/
def joinSep (sep : Str) (l : List Str) : Str :=
  match l with
  | [] => []
  | x :: xs => x ++ (xs.map (fun y => sep ++ y)).flatten

/-- Source line 36: `[p.strip() for p in text.split('\n\n') if p.strip()]`. -/
def paras2 (t : Str) : List Str :=
  ((splitNl2 t).map strip).filter (fun q => !q.isEmpty)

/-- Source line 40: `[p.strip() for p in text.split('\n') if p.strip()]`. -/
def paras1 (t : Str) : List Str :=
  ((splitNl t).map strip).filter (fun q => !q.isEmpty)

/-- Source lines 36–40: the paragraph units actually fed to the greedy loop —
double-newline paragraphs, or single-newline lines when there are fewer
paragraphs than requested parts. -/
def tokensUsed (t : Str) (np : Nat) : List Str :=
  if (paras2 t).length < np then paras1 t else paras2 t

/-- An exact rational `num / den`; the denominator is positive at every use
in this development. -/
structure Frac where
  num : ℤ
  den : ℤ

/-- `(x : ℝ) ≤ num / den`, expressed for a positive denominator as
`x * den ≤ num`. -/
abbrev Frac.leOf (x : ℕ) (f : Frac) : Prop := (x : ℤ) * f.den ≤ f.num

/-- Multiply the exact rational by a natural number (denominator unchanged). -/
def Frac.mulNat (f : Frac) (k : ℕ) : Frac := ⟨f.num * k, f.den⟩

/-- The mutable state of the greedy loop of `split_text_into_parts`
(source lines 48–51): `parts`, `current_part`, `current_chars`, `target_chars`. -/
structure SplitState where
  parts : List Str
  current : Str
  currentChars : Nat
  target : Frac

/-- One iteration of the loop of source lines 53–69 for one paragraph:
either append the paragraph to the current part (when it fits under
`target_chars`, or the current part is the last permitted one), or close the
current part and start a new one, advancing `target_chars` to
`chars_per_part * (len(parts) + 1)`. -/
def stepPara (cpp : Frac) (np : Nat) (st : SplitState) (p : Str) : SplitState :=
  if Frac.leOf (st.currentChars + p.length) st.target
      ∨ (st.parts.length : ℤ) = (np : ℤ) - 1 then
    { st with
      current := (if st.current.isEmpty then [] else st.current ++ sepNl2) ++ p,
      currentChars := st.currentChars + p.length + 2 }
  else
    let parts' := if st.current.isEmpty then st.parts else st.parts ++ [strip st.current]
    { parts := parts'
      current := p
      currentChars := p.length
      target := cpp.mulNat (parts'.length + 1) }

/-- Source lines 71–73: after the loop, append the trimmed current buffer as
the final part if it is non-empty. -/
def closeParts (st : SplitState) : List Str :=
  if st.current.isEmpty then st.parts else st.parts ++ [strip st.current]

/-- Source lines 76–79: if fewer parts were produced than requested, pad the
list with empty strings up to `num_parts` entries. -/
def padParts (np : Nat) (l : List Str) : List Str :=
  if 0 < l.length ∧ l.length < np then l ++ List.replicate (np - l.length) []
  else l

/-- Source lines 45–81 (after the tokenization and degenerate-case checks):
`chars_per_part = total_chars / num_parts`, the greedy accumulation loop, the
final append (`closeParts`), the fill-with-empty-strings step (`padParts`)
and the truncation `parts[:num_parts]`. -/
def splitCore (text : Str) (np : Nat) (paras : List Str) : List Str :=
  (padParts np
    (closeParts
      (paras.foldl (stepPara ⟨text.length, np⟩ np) ⟨[], [], 0, ⟨text.length, np⟩⟩))).take np

/-- Source lines 28–81.  `none` models the `ZeroDivisionError` raised at
`chars_per_part = total_chars / num_parts` when `num_parts = 0` is reached. -/
def split_text_into_parts (text : Str) (np : Nat) : Option (List Str) :=
  if (strip text).isEmpty then some [text]
  else
    let paras := tokensUsed text np
    if paras.isEmpty then some [text]
    else if np = 0 then none
    else some (splitCore text np paras)

/-- `math.ceil(a / b)` for integers `a`, `b` with `b ≠ 0`, by exact integer
arithmetic (Euclidean division rounds toward `-∞` for a positive divisor and
toward `+∞` for a negative one). -/
def ceilDiv (a b : ℤ) : ℤ := if 0 < b then -((-a) / b) else a / b

/-- Source lines 83–96, with the policy globals `MAX_CHARS_PER_PART`,
`MIN_PARTS`, `MAX_PARTS` passed as parameters.  `none` models the
`ZeroDivisionError` of `math.ceil(text_length / max_chars)` when `mc = 0`. -/
def determine_num_parts (tl mc minP maxP : ℤ) : Option ℤ :=
  if tl ≤ mc then some 1
  else if mc = 0 then none
  else some (max minP (min (ceilDiv tl mc) maxP))

/-- The characters replaced by `_` in `sanitize_filename` (source line 23). -/
def isForbidden (c : Char) : Bool :=
  c = '<' || c = '>' || c = ':' || c = '"' || c = '/' || c = '\\' ||
  c = '|' || c = '?' || c = '*'

/-- Source line 23: `re.sub(r'[<>:"/\\|?*]', '_', filename)`. -/
def replaceForbidden (s : Str) : Str :=
  s.map (fun c => if isForbidden c then '_' else c)

/-- Source line 25, first half: `re.sub(r'\s+', ' ', filename)` — each maximal
run of whitespace becomes a single space.  The boolean records whether the
previous character belonged to a whitespace run. -/
def collapseWsAux : Bool → Str → Str
  | _, [] => []
  | prevWs, c :: rest =>
    if isWs c then
      if prevWs then collapseWsAux true rest
      else ' ' :: collapseWsAux true rest
    else c :: collapseWsAux false rest

/-- `re.sub(r'\s+', ' ', s)`. -/
def collapseWs (s : Str) : Str := collapseWsAux false s

/-- Source lines 18–26. -/
def sanitize_filename (s : Str) : Str :=
  strip (collapseWs (replaceForbidden s))

/-! ### Basic facts about whitespace, stripping and splitting -/

theorem nonWs_nil : nonWs [] = [] := rfl

theorem nonWs_append (s t : Str) : nonWs (s ++ t) = nonWs s ++ nonWs t :=
  List.filter_append ..

theorem nonWs_lstrip (s : Str) : nonWs (lstrip s) = nonWs s := by
  induction s with
  | nil => rfl
  | cons c t ih =>
    by_cases hc : isWs c = true
    · simp [lstrip, nonWs, List.dropWhile_cons, hc] at ih ⊢
      exact ih
    · simp [lstrip, List.dropWhile_cons, hc]

theorem nonWs_reverse (s : Str) : nonWs s.reverse = (nonWs s).reverse :=
  List.filter_reverse ..

theorem nonWs_rstrip (s : Str) : nonWs (rstrip s) = nonWs s := by
  have h := nonWs_lstrip s.reverse
  rw [nonWs_reverse] at h
  have : nonWs (rstrip s) = (nonWs (lstrip s.reverse)).reverse := by
    rw [rstrip]; rw [nonWs_reverse]; rfl
  rw [this, h, List.reverse_reverse]

theorem nonWs_strip (s : Str) : nonWs (strip s) = nonWs s := by
  rw [strip, nonWs_rstrip, nonWs_lstrip]

theorem nonWs_eq_nil_iff (s : Str) : nonWs s = [] ↔ ∀ c ∈ s, isWs c = true := by
  unfold nonWs
  rw [List.filter_eq_nil_iff]
  constructor
  · intro h c hc
    have := h c hc
    simpa using this
  · intro h c hc
    simpa using h c hc

theorem strip_eq_nil_iff (s : Str) : strip s = [] ↔ nonWs s = [] := by
  constructor
  · intro h
    have := nonWs_strip s
    rw [h] at this
    exact this.symm
  · intro h
    rw [nonWs_eq_nil_iff] at h
    have hl : lstrip s = [] := by
      unfold lstrip
      rw [List.dropWhile_eq_nil_iff]
      exact h
    rw [strip, hl]
    rfl

theorem strip_ne_nil_of_nonWs {s : Str} (h : nonWs s ≠ []) : strip s ≠ [] := by
  intro hs
  exact h ((strip_eq_nil_iff s).mp hs)

/-! ### `splitNl` / `splitNl2` are partitions of the text -/

theorem consHead_ne_nil (c : Char) (l : List Str) : consHead c l ≠ [] := by
  cases l <;> simp [consHead]

theorem splitNl_ne_nil (t : Str) : splitNl t ≠ [] := by
  induction t with
  | nil => simp [splitNl]
  | cons c rest ih =>
    by_cases hc : c = '\n' <;> simp [splitNl, hc, consHead_ne_nil]

theorem splitNl2_ne_nil (t : Str) : splitNl2 t ≠ [] := by
  induction t using splitNl2.induct with
  | case1 => simp [splitNl2]
  | case2 c => simp [splitNl2]
  | case3 c d rest h ih => simp [splitNl2, h]
  | case4 c d rest h ih => simp [splitNl2, h, consHead_ne_nil]

theorem joinSep_consHead (sep : Str) (c : Char) (l : List Str) (h : l ≠ []) :
    joinSep sep (consHead c l) = c :: joinSep sep l := by
  cases l with
  | nil => exact absurd rfl h
  | cons x xs => simp [consHead, joinSep]

theorem joinSep_cons_cons (sep : Str) (x : Str) (l : List Str) (h : l ≠ []) :
    joinSep sep (x :: l) = x ++ sep ++ joinSep sep l := by
  cases l with
  | nil => exact absurd rfl h
  | cons y ys => simp [joinSep]

theorem joinSep_splitNl (t : Str) : joinSep sepNl (splitNl t) = t := by
  induction t with
  | nil => rfl
  | cons c rest ih =>
    by_cases hc : c = '\n'
    · subst hc
      show joinSep sepNl (if ('\n' : Char) = '\n' then _ else _) = _
      rw [if_pos rfl, joinSep_cons_cons _ _ _ (splitNl_ne_nil rest), ih]
      rfl
    · show joinSep sepNl (if c = '\n' then _ else _) = _
      rw [if_neg hc, joinSep_consHead _ _ _ (splitNl_ne_nil rest), ih]

theorem joinSep_splitNl2 (t : Str) : joinSep sepNl2 (splitNl2 t) = t := by
  induction t using splitNl2.induct with
  | case1 => rfl
  | case2 c => rfl
  | case3 c d rest h ih =>
    obtain ⟨hc, hd⟩ := h
    subst hc; subst hd
    show joinSep sepNl2 (splitNl2 ('\n' :: '\n' :: rest)) = _
    rw [splitNl2, if_pos ⟨rfl, rfl⟩,
      joinSep_cons_cons _ _ _ (splitNl2_ne_nil rest), ih]
    rfl
  | case4 c d rest h ih =>
    show joinSep sepNl2 (splitNl2 (c :: d :: rest)) = _
    rw [splitNl2, if_neg h,
      joinSep_consHead _ _ _ (splitNl2_ne_nil (d :: rest)), ih]

/-! ### Non-whitespace content of the tokenizations -/

/-- The non-whitespace content of a list of segments, concatenated in order. -/
def joinNW (l : List Str) : Str := (l.map nonWs).flatten

theorem joinNW_nil : joinNW [] = [] := rfl

theorem joinNW_cons (x : Str) (l : List Str) :
    joinNW (x :: l) = nonWs x ++ joinNW l := by
  simp [joinNW]

theorem joinNW_append (l₁ l₂ : List Str) :
    joinNW (l₁ ++ l₂) = joinNW l₁ ++ joinNW l₂ := by
  simp [joinNW]

theorem nonWs_joinSep {sep : Str} (hsep : nonWs sep = []) (l : List Str) :
    nonWs (joinSep sep l) = joinNW l := by
  cases l with
  | nil => rfl
  | cons x xs =>
    rw [joinSep, nonWs_append, joinNW_cons]
    congr 1
    induction xs with
    | nil => rfl
    | cons y ys ih =>
      simp only [List.map_cons, List.flatten_cons, nonWs_append, joinNW_cons, hsep,
        List.nil_append, ih]

theorem nonWs_sepNl : nonWs sepNl = [] := rfl

theorem nonWs_sepNl2 : nonWs sepNl2 = [] := rfl

theorem joinNW_map_strip (l : List Str) : joinNW (l.map strip) = joinNW l := by
  induction l with
  | nil => rfl
  | cons x xs ih => simp [joinNW_cons, nonWs_strip, ih]

theorem joinNW_filter_ne_nil (l : List Str) :
    joinNW (l.filter (fun q => !q.isEmpty)) = joinNW l := by
  induction l with
  | nil => rfl
  | cons x xs ih =>
    by_cases hx : x.isEmpty = true
    · have hx' : x = [] := by simpa using hx
      subst hx'
      simpa [List.filter_cons, joinNW_cons] using ih
    · simp [List.filter_cons, hx, joinNW_cons, ih]

theorem joinNW_paras2 (t : Str) : joinNW (paras2 t) = nonWs t := by
  rw [paras2, joinNW_filter_ne_nil, joinNW_map_strip,
    ← nonWs_joinSep nonWs_sepNl2, joinSep_splitNl2]

theorem joinNW_paras1 (t : Str) : joinNW (paras1 t) = nonWs t := by
  rw [paras1, joinNW_filter_ne_nil, joinNW_map_strip,
    ← nonWs_joinSep nonWs_sepNl, joinSep_splitNl]

theorem joinNW_tokensUsed (t : Str) (np : Nat) :
    joinNW (tokensUsed t np) = nonWs t := by
  rw [tokensUsed]
  split
  · exact joinNW_paras1 t
  · exact joinNW_paras2 t

theorem paras2_ne_nil {t : Str} (h : nonWs t ≠ []) : paras2 t ≠ [] := by
  intro hp
  apply h
  rw [← joinNW_paras2, hp]
  rfl

theorem paras1_ne_nil {t : Str} (h : nonWs t ≠ []) : paras1 t ≠ [] := by
  intro hp
  apply h
  rw [← joinNW_paras1, hp]
  rfl

theorem tokensUsed_ne_nil {t : Str} (np : Nat) (h : nonWs t ≠ []) :
    tokensUsed t np ≠ [] := by
  rw [tokensUsed]
  split
  · exact paras1_ne_nil h
  · exact paras2_ne_nil h

/-- Every paragraph unit fed to the loop is non-empty and has non-empty
non-whitespace content. -/
theorem tokensUsed_elem {t : Str} {np : Nat} {q : Str}
    (hq : q ∈ tokensUsed t np) : q ≠ [] ∧ nonWs q ≠ [] := by
  have hmem : q ∈ ((splitNl t).map strip).filter (fun q => !q.isEmpty) ∨
      q ∈ ((splitNl2 t).map strip).filter (fun q => !q.isEmpty) := by
    rw [tokensUsed] at hq
    revert hq
    split
    · intro hq; exact Or.inl hq
    · intro hq; exact Or.inr hq
  have key : ∀ (l : List Str), q ∈ (l.map strip).filter (fun q => !q.isEmpty) →
      q ≠ [] ∧ nonWs q ≠ [] := by
    intro l hmem'
    rw [List.mem_filter] at hmem'
    obtain ⟨hmap, hne⟩ := hmem'
    have hqe : q ≠ [] := by simpa using hne
    refine ⟨hqe, ?_⟩
    rw [List.mem_map] at hmap
    obtain ⟨p, _, hp⟩ := hmap
    intro hnw
    apply hqe
    subst hp
    rw [strip_eq_nil_iff]
    rw [nonWs_strip] at hnw
    exact hnw
  cases hmem with
  | inl h1 => exact key _ h1
  | inr h2 => exact key _ h2

/-! ### Invariants of the greedy accumulation loop -/

theorem append_ne_nil_right {s t : Str} (h : t ≠ []) : s ++ t ≠ [] := by
  intro hc
  exact h (List.append_eq_nil.mp hc).2

/-- One step preserves the total non-whitespace content. -/
theorem stepPara_content (cpp : Frac) (np : Nat) (st : SplitState) (p : Str) :
    joinNW (stepPara cpp np st p).parts ++ nonWs (stepPara cpp np st p).current =
      (joinNW st.parts ++ nonWs st.current) ++ nonWs p := by
  unfold stepPara
  split
  · by_cases hc : st.current.isEmpty
    · have hnil : st.current = [] := by simpa using hc
      simp [hc, hnil, nonWs_append, nonWs_nil]
    · simp [hc, nonWs_append, nonWs_sepNl2, List.append_assoc]
  · simp only
    by_cases hc : st.current.isEmpty
    · have hnil : st.current = [] := by simpa using hc
      simp [hc, hnil, nonWs_append, nonWs_nil]
    · simp [hc, joinNW_append, joinNW_cons, joinNW_nil, nonWs_strip, List.append_assoc]

theorem foldl_content (cpp : Frac) (np : Nat) (ps : List Str) :
    ∀ st : SplitState,
      joinNW ((ps.foldl (stepPara cpp np) st).parts) ++
          nonWs ((ps.foldl (stepPara cpp np) st).current) =
        (joinNW st.parts ++ nonWs st.current) ++ joinNW ps := by
  induction ps with
  | nil => intro st; simp [joinNW_nil]
  | cons p rest ih =>
    intro st
    rw [List.foldl_cons, ih, stepPara_content, joinNW_cons]
    simp [List.append_assoc]

/-- One step keeps the closed-parts count below `num_parts`: the loop can only
close a part when the current count differs from `num_parts - 1`. -/
theorem stepPara_parts_length (cpp : Frac) (np : Nat) (st : SplitState) (p : Str)
    (h : st.parts.length < np) :
    (stepPara cpp np st p).parts.length < np := by
  unfold stepPara
  split
  · simpa using h
  next hcond =>
    rw [not_or] at hcond
    simp only
    by_cases hc : st.current.isEmpty
    · simpa [hc] using h
    · simp only [hc, Bool.false_eq_true, if_false, List.length_append,
        List.length_singleton]
      have h2 := hcond.2
      omega

theorem foldl_parts_length (cpp : Frac) (np : Nat) (ps : List Str) :
    ∀ st : SplitState, st.parts.length < np →
      ((ps.foldl (stepPara cpp np) st).parts).length < np := by
  induction ps with
  | nil => intro st h; simpa using h
  | cons p rest ih =>
    intro st h
    rw [List.foldl_cons]
    exact ih _ (stepPara_parts_length cpp np st p h)

/-- One step preserves "every closed part has non-whitespace content, and the
current buffer is empty or has non-whitespace content". -/
theorem stepPara_parts_elem (cpp : Frac) (np : Nat) (st : SplitState) (p : Str)
    (hp : nonWs p ≠ [])
    (h1 : ∀ q ∈ st.parts, nonWs q ≠ [])
    (h2 : st.current = [] ∨ nonWs st.current ≠ []) :
    (∀ q ∈ (stepPara cpp np st p).parts, nonWs q ≠ []) ∧
      ((stepPara cpp np st p).current = [] ∨
        nonWs (stepPara cpp np st p).current ≠ []) := by
  unfold stepPara
  split
  · refine ⟨by simpa using h1, Or.inr ?_⟩
    by_cases hc : st.current.isEmpty
    · simpa [hc] using hp
    · simp only [hc, Bool.false_eq_true, if_false, nonWs_append]
      exact append_ne_nil_right hp
  · simp only
    by_cases hc : st.current.isEmpty
    · exact ⟨by simpa [hc] using h1, Or.inr (by simpa using hp)⟩
    · refine ⟨?_, Or.inr (by simpa using hp)⟩
      simp only [hc, Bool.false_eq_true, if_false]
      intro q hq
      rw [List.mem_append] at hq
      cases hq with
      | inl hq => exact h1 q hq
      | inr hq =>
        have hqe : q = strip st.current := by simpa using hq
        subst hqe
        rw [nonWs_strip]
        cases h2 with
        | inl h0 => exact absurd (by simp [h0]) hc
        | inr h0 => exact h0

theorem foldl_parts_elem (cpp : Frac) (np : Nat) (ps : List Str)
    (hps : ∀ p ∈ ps, nonWs p ≠ []) :
    ∀ st : SplitState, (∀ q ∈ st.parts, nonWs q ≠ []) →
      (st.current = [] ∨ nonWs st.current ≠ []) →
      (∀ q ∈ (ps.foldl (stepPara cpp np) st).parts, nonWs q ≠ []) ∧
        ((ps.foldl (stepPara cpp np) st).current = [] ∨
          nonWs ((ps.foldl (stepPara cpp np) st).current) ≠ []) := by
  induction ps with
  | nil => intro st h1 h2; exact ⟨h1, h2⟩
  | cons p rest ih =>
    intro st h1 h2
    rw [List.foldl_cons]
    have hp : nonWs p ≠ [] := hps p (by simp)
    have hstep := stepPara_parts_elem cpp np st p hp h1 h2
    exact ih (fun q hq => hps q (by simp [hq])) _ hstep.1 hstep.2

/-- After at least one step the current buffer is non-empty (every paragraph
unit is non-empty, and both branches end the iteration with the paragraph in
the buffer). -/
theorem stepPara_current_ne (cpp : Frac) (np : Nat) (st : SplitState) (p : Str)
    (hp : p ≠ []) : (stepPara cpp np st p).current ≠ [] := by
  unfold stepPara
  split
  · exact append_ne_nil_right hp
  · simpa using hp

theorem foldl_current_ne (cpp : Frac) (np : Nat) (ps : List Str)
    (hps : ∀ p ∈ ps, p ≠ []) :
    ∀ st : SplitState, (ps ≠ [] ∨ st.current ≠ []) →
      (ps.foldl (stepPara cpp np) st).current ≠ [] := by
  induction ps with
  | nil =>
    intro st h
    cases h with
    | inl h => exact absurd rfl h
    | inr h => simpa using h
  | cons p rest ih =>
    intro st _
    rw [List.foldl_cons]
    refine ih (fun q hq => hps q (by simp [hq])) _ (Or.inr ?_)
    exact stepPara_current_ne cpp np st p (hps p (by simp))

/-! ### The closing, padding and truncation stages -/

theorem joinNW_replicate_nil (k : Nat) : joinNW (List.replicate k []) = [] := by
  induction k with
  | zero => rfl
  | succ n ih => rw [List.replicate_succ, joinNW_cons, nonWs_nil, List.nil_append, ih]

theorem closeParts_joinNW (st : SplitState) :
    joinNW (closeParts st) = joinNW st.parts ++ nonWs st.current := by
  unfold closeParts
  by_cases hc : st.current.isEmpty
  · have hnil : st.current = [] := by simpa using hc
    simp [hc, hnil, nonWs_nil]
  · simp [hc, joinNW_append, joinNW_cons, joinNW_nil, nonWs_strip]

theorem closeParts_length_le (st : SplitState) :
    (closeParts st).length ≤ st.parts.length + 1 := by
  unfold closeParts
  by_cases hc : st.current.isEmpty <;> simp [hc]

theorem closeParts_elem (st : SplitState)
    (h1 : ∀ q ∈ st.parts, nonWs q ≠ [])
    (h2 : st.current = [] ∨ nonWs st.current ≠ []) :
    ∀ q ∈ closeParts st, nonWs q ≠ [] := by
  unfold closeParts
  by_cases hc : st.current.isEmpty
  · simpa [hc] using h1
  · simp only [hc, Bool.false_eq_true, if_false]
    intro q hq
    rw [List.mem_append] at hq
    cases hq with
    | inl hq => exact h1 q hq
    | inr hq =>
      have hqe : q = strip st.current := by simpa using hq
      subst hqe
      rw [nonWs_strip]
      cases h2 with
      | inl h0 => exact absurd (by simp [h0]) hc
      | inr h0 => exact h0

theorem closeParts_ne_nil (st : SplitState) (h : st.current ≠ []) :
    closeParts st ≠ [] := by
  unfold closeParts
  rw [if_neg (by simpa using h)]
  simp

theorem padParts_joinNW (np : Nat) (l : List Str) :
    joinNW (padParts np l) = joinNW l := by
  unfold padParts
  split
  · rw [joinNW_append, joinNW_replicate_nil, List.append_nil]
  · rfl

theorem padParts_length_le (np : Nat) (l : List Str) (h : l.length ≤ np) :
    (padParts np l).length ≤ np := by
  unfold padParts
  split
  · simp only [List.length_append, List.length_replicate]
    omega
  · exact h

theorem padParts_length_ge (np : Nat) (l : List Str) :
    l.length ≤ (padParts np l).length := by
  unfold padParts
  split
  · simp
  · exact le_refl _

theorem padParts_elem (np : Nat) (l : List Str) :
    ∀ q ∈ padParts np l, q ∈ l ∨ q = [] := by
  unfold padParts
  split
  · intro q hq
    rw [List.mem_append] at hq
    cases hq with
    | inl hq => exact Or.inl hq
    | inr hq => exact Or.inr (List.eq_of_mem_replicate hq)
  · intro q hq
    exact Or.inl hq

/-- Master lemma about the loop-plus-postprocessing stage: for a requested
part count of at least one and a non-empty paragraph list of non-empty
units, the result keeps exactly the non-whitespace content of the units, has
between `1` and `np` entries, and every entry is an empty padding string or
has non-whitespace content. -/
theorem splitCore_spec (text : Str) (np : Nat) (paras : List Str)
    (hnp : 1 ≤ np) (hne : paras ≠ [])
    (helem : ∀ p ∈ paras, p ≠ [] ∧ nonWs p ≠ []) :
    joinNW (splitCore text np paras) = joinNW paras ∧
      (splitCore text np paras).length ≤ np ∧
      1 ≤ (splitCore text np paras).length ∧
      ∀ q ∈ splitCore text np paras, q = [] ∨ nonWs q ≠ [] := by
  unfold splitCore
  set cpp : Frac := (⟨text.length, np⟩ : Frac) with hcpp
  set st := paras.foldl (stepPara cpp np) ⟨[], [], 0, cpp⟩ with hst
  have hlen : st.parts.length < np := by
    rw [hst]
    exact foldl_parts_length cpp np paras ⟨[], [], 0, cpp⟩ (by simpa using hnp)
  have hcontent : joinNW st.parts ++ nonWs st.current = joinNW paras := by
    rw [hst]
    have h := foldl_content cpp np paras ⟨[], [], 0, cpp⟩
    simpa [joinNW_nil, nonWs_nil] using h
  have helems := foldl_parts_elem cpp np paras (fun p hp => (helem p hp).2)
    ⟨[], [], 0, cpp⟩ (by simp) (Or.inl rfl)
  have hcur : st.current ≠ [] := by
    rw [hst]
    exact foldl_current_ne cpp np paras (fun p hp => (helem p hp).1) _ (Or.inl hne)
  have hclose_len : (closeParts st).length ≤ np :=
    le_trans (closeParts_length_le st) (by omega)
  have hpad_len : (padParts np (closeParts st)).length ≤ np :=
    padParts_length_le np _ hclose_len
  have htake : (padParts np (closeParts st)).take np = padParts np (closeParts st) :=
    List.take_of_length_le hpad_len
  rw [htake]
  refine ⟨?_, ?_, ?_, ?_⟩
  · rw [padParts_joinNW, closeParts_joinNW, hcontent]
  · exact hpad_len
  · have h1 : 1 ≤ (closeParts st).length := by
      have := closeParts_ne_nil st hcur
      cases hcl : closeParts st with
      | nil => exact absurd hcl this
      | cons a l => simp
    exact le_trans h1 (padParts_length_ge np _)
  · intro q hq
    cases padParts_elem np (closeParts st) q hq with
    | inl hmem => exact Or.inr (closeParts_elem st helems.1 helems.2 q hmem)
    | inr hnil => exact Or.inl hnil

/-- Unfolding of `split_text_into_parts` on the main path: text with
non-whitespace content and a positive requested part count. -/
theorem split_main {text : Str} {np : Nat} (hnw : nonWs text ≠ []) (hnp : 1 ≤ np) :
    split_text_into_parts text np = some (splitCore text np (tokensUsed text np)) := by
  unfold split_text_into_parts
  rw [if_neg (by simpa using strip_ne_nil_of_nonWs hnw)]
  rw [if_neg (by simpa using tokensUsed_ne_nil np hnw)]
  rw [if_neg (by omega)]

/-- Degenerate case (source lines 32–33): text without non-whitespace
content is returned unchanged as a single segment. -/
theorem split_ws_eq {text : Str} (np : Nat) (h : nonWs text = []) :
    split_text_into_parts text np = some [text] := by
  unfold split_text_into_parts
  rw [if_pos (by simp [(strip_eq_nil_iff text).mpr h])]

/-- With `num_parts = 0` and non-whitespace text, the division
`total_chars / num_parts` is reached and raises `ZeroDivisionError`. -/
theorem split_zero {text : Str} (hnw : nonWs text ≠ []) :
    split_text_into_parts text 0 = none := by
  unfold split_text_into_parts
  rw [if_neg (by simpa using strip_ne_nil_of_nonWs hnw)]
  rw [if_neg (by simpa using tokensUsed_ne_nil 0 hnw)]
  rw [if_pos rfl]

/-! ### The `num_parts = 1` case -/

theorem append_ne_nil_left {s t : Str} (h : s ≠ []) : s ++ t ≠ [] := by
  intro hc
  exact h (List.append_eq_nil.mp hc).1

theorem stepPara_np1 (cpp : Frac) (st : SplitState) (p : Str) (h : st.parts = []) :
    stepPara cpp 1 st p =
      { st with
        current := (if st.current.isEmpty then [] else st.current ++ sepNl2) ++ p,
        currentChars := st.currentChars + p.length + 2 } := by
  unfold stepPara
  rw [if_pos (Or.inr (by rw [h]; simp))]

theorem foldl_np1 (cpp : Frac) (ps : List Str) :
    ∀ st : SplitState, st.parts = [] →
      (ps.foldl (stepPara cpp 1) st).parts = [] ∧
      (ps.foldl (stepPara cpp 1) st).current =
        ps.foldl (fun c p => (if c.isEmpty then [] else c ++ sepNl2) ++ p) st.current := by
  induction ps with
  | nil => intro st h; exact ⟨h, rfl⟩
  | cons p rest ih =>
    intro st h
    rw [List.foldl_cons, List.foldl_cons, stepPara_np1 cpp st p h]
    exact ih _ (by simpa using h)

theorem foldAcc_of_ne_nil (ps : List Str) :
    ∀ c : Str, c ≠ [] →
      ps.foldl (fun c p => (if c.isEmpty then [] else c ++ sepNl2) ++ p) c =
        c ++ (ps.map (fun y => sepNl2 ++ y)).flatten := by
  induction ps with
  | nil => intro c hc; simp
  | cons p rest ih =>
    intro c hc
    rw [List.foldl_cons]
    have hc' : (if c.isEmpty then [] else c ++ sepNl2) ++ p = (c ++ sepNl2) ++ p := by
      rw [if_neg (by simpa using hc)]
    rw [hc', ih _ (append_ne_nil_left (append_ne_nil_left hc))]
    simp [List.map_cons, List.flatten_cons, List.append_assoc]

theorem foldAcc_nil (ps : List Str) (hps : ∀ p ∈ ps, p ≠ []) :
    ps.foldl (fun c p => (if c.isEmpty then [] else c ++ sepNl2) ++ p) [] =
      joinSep sepNl2 ps := by
  cases ps with
  | nil => rfl
  | cons p rest =>
    rw [List.foldl_cons]
    have h0 : (if ([] : Str).isEmpty then [] else ([] : Str) ++ sepNl2) ++ p = p := by
      simp
    rw [h0, foldAcc_of_ne_nil rest p (hps p (by simp))]
    rfl

theorem paras2_elem_ne_nil {t : Str} {q : Str} (hq : q ∈ paras2 t) : q ≠ [] := by
  rw [paras2, List.mem_filter] at hq
  simpa using hq.2

theorem joinSep_paras2_ne_nil {t : Str} (h : paras2 t ≠ []) :
    joinSep sepNl2 (paras2 t) ≠ [] := by
  cases hp : paras2 t with
  | nil => exact absurd hp h
  | cons p rest =>
    rw [joinSep]
    exact append_ne_nil_left (paras2_elem_ne_nil (by rw [hp]; simp))

/-- `split_text_into_parts` with `num_parts = 1`, in closed form: the single
returned segment is the original text when it is whitespace-only, and
otherwise the trimmed double-newline re-join of the trimmed paragraph
units. -/
theorem split_one (text : Str) :
    split_text_into_parts text 1 =
      some [if (strip text).isEmpty then text
            else strip (joinSep sepNl2 (paras2 text))] := by
  by_cases hnw : nonWs text = []
  · rw [split_ws_eq 1 hnw, if_pos (by simp [(strip_eq_nil_iff text).mpr hnw])]
  · have hp2 : paras2 text ≠ [] := paras2_ne_nil hnw
    have h1 : tokensUsed text 1 = paras2 text := by
      rw [tokensUsed, if_neg]
      intro hlt
      rw [Nat.lt_one_iff, List.length_eq_zero] at hlt
      exact hp2 hlt
    rw [split_main hnw (le_refl 1), h1,
      if_neg (by simpa using strip_ne_nil_of_nonWs hnw)]
    congr 1
    unfold splitCore
    obtain ⟨hparts, hcur⟩ :=
      foldl_np1 ⟨(text.length : ℤ), ((1 : ℕ) : ℤ)⟩ (paras2 text)
        ⟨[], [], 0, ⟨(text.length : ℤ), ((1 : ℕ) : ℤ)⟩⟩ rfl
    rw [foldAcc_nil (paras2 text) (fun p hp => paras2_elem_ne_nil hp)] at hcur
    have hcur_ne : joinSep sepNl2 (paras2 text) ≠ [] := joinSep_paras2_ne_nil hp2
    have hclose : closeParts
        ((paras2 text).foldl (stepPara ⟨(text.length : ℤ), ((1 : ℕ) : ℤ)⟩ 1)
          ⟨[], [], 0, ⟨(text.length : ℤ), ((1 : ℕ) : ℤ)⟩⟩) =
        [strip (joinSep sepNl2 (paras2 text))] := by
      unfold closeParts
      rw [hcur, hparts, if_neg (by simpa using hcur_ne)]
      rfl
    rw [hclose]
    unfold padParts
    rw [if_neg (by simp)]
    rfl

/-! ### `ceilDiv` computes the rational ceiling -/

theorem ceilDiv_pos_eq (a b : ℤ) (hb : 0 < b) :
    ceilDiv a b = ⌈(a : ℚ) / (b : ℚ)⌉ := by
  unfold ceilDiv
  rw [if_pos hb]
  set q := (-a) / b with hq
  have heq : b * q + (-a) % b = -a := Int.ediv_add_emod (-a) b
  have hr0 : 0 ≤ (-a) % b := Int.emod_nonneg (-a) (by omega)
  have hrb : (-a) % b < b := Int.emod_lt_of_pos (-a) hb
  have hb' : (0 : ℚ) < (b : ℚ) := by exact_mod_cast hb
  symm
  rw [Int.ceil_eq_iff]
  constructor
  · rw [lt_div_iff₀ hb']
    have hz : (-q - 1) * b < a := by nlinarith [heq, hrb]
    push_cast
    exact_mod_cast hz
  · rw [div_le_iff₀ hb']
    have hz : a ≤ (-q) * b := by nlinarith [heq, hr0]
    push_cast
    exact_mod_cast hz

theorem ceilDiv_eq_ceil (a b : ℤ) (hb : b ≠ 0) :
    ceilDiv a b = ⌈(a : ℚ) / (b : ℚ)⌉ := by
  rcases lt_or_gt_of_ne hb with hneg | hpos
  · have h1 : ceilDiv a b = ceilDiv (-a) (-b) := by
      unfold ceilDiv
      rw [if_neg (by omega), if_pos (by omega), neg_neg, Int.ediv_neg, neg_neg]
    rw [h1, ceilDiv_pos_eq (-a) (-b) (by omega)]
    congr 1
    push_cast
    rw [neg_div_neg_eq]
  · exact ceilDiv_pos_eq a b hpos

/-- `determine_num_parts` in closed form for a non-zero `max_chars_per_part`:
`1` when the text fits, otherwise the clamp of the rational ceiling. -/
theorem determine_num_parts_formula (tl mc minP maxP : ℤ) (h : mc ≠ 0) :
    determine_num_parts tl mc minP maxP =
      some (if tl ≤ mc then 1
            else max minP (min ⌈(tl : ℚ) / (mc : ℚ)⌉ maxP)) := by
  unfold determine_num_parts
  by_cases h1 : tl ≤ mc
  · rw [if_pos h1, if_pos h1]
  · rw [if_neg h1, if_neg h1, if_neg h, ceilDiv_eq_ceil tl mc h]

/-! ### Stripping is idempotent; stripped strings are infixes -/

theorem dropWhile_isWs_idem (l : Str) :
    (l.dropWhile isWs).dropWhile isWs = l.dropWhile isWs := by
  induction l with
  | nil => rfl
  | cons c t ih =>
    by_cases h : isWs c = true
    · simpa [List.dropWhile_cons, h] using ih
    · simp [List.dropWhile_cons, h]

theorem lstrip_idem (s : Str) : lstrip (lstrip s) = lstrip s :=
  dropWhile_isWs_idem s

theorem rstrip_idem (s : Str) : rstrip (rstrip s) = rstrip s := by
  unfold rstrip
  rw [List.reverse_reverse, dropWhile_isWs_idem]

theorem lstrip_cons_of_not_ws {c : Char} (h : isWs c = false) (t : Str) :
    lstrip (c :: t) = c :: t := by
  simp [lstrip, List.dropWhile_cons, h]

theorem lstrip_rstrip_of_lstripped (s : Str) (h : lstrip s = s) :
    lstrip (rstrip s) = rstrip s := by
  cases hs : s with
  | nil => rfl
  | cons c t =>
    have hc : isWs c = false := by
      by_contra hcc
      have hcc' : isWs c = true := by simpa using hcc
      rw [hs] at h
      rw [show lstrip (c :: t) = lstrip t by
        simp [lstrip, List.dropWhile_cons, hcc']] at h
      have hlen := congrArg List.length h
      have hle := (List.dropWhile_suffix (l := t) isWs).sublist.length_le
      rw [show lstrip t = t.dropWhile isWs from rfl] at hlen
      simp only [List.length_cons] at hlen
      omega
    rw [← hs]
    unfold rstrip
    rw [hs, List.reverse_cons, List.dropWhile_append]
    split
    · rw [show List.dropWhile isWs [c] = [c] by simp [List.dropWhile_cons, hc]]
      simpa using lstrip_cons_of_not_ws hc []
    · rw [List.reverse_append, List.reverse_cons, List.reverse_nil, List.nil_append]
      exact lstrip_cons_of_not_ws hc _

theorem strip_strip (s : Str) : strip (strip s) = strip s := by
  unfold strip
  rw [lstrip_rstrip_of_lstripped (lstrip s) (lstrip_idem s), rstrip_idem]

theorem lstrip_suffix (s : Str) : lstrip s <:+ s :=
  List.dropWhile_suffix isWs

theorem prefix_rstrip (s : Str) : rstrip s <+: s := by
  have h : (s.reverse.dropWhile isWs) <:+ s.reverse := List.dropWhile_suffix isWs
  have h2 := List.reverse_prefix.mpr h
  rwa [List.reverse_reverse] at h2

theorem infix_strip (s : Str) : strip s <:+: s :=
  List.IsInfix.trans ((prefix_rstrip (lstrip s)).isInfix)
    ((lstrip_suffix s).isInfix)

/-! ### Properties of whitespace collapsing -/

theorem collapseWsAux_mem (s : Str) :
    ∀ (b : Bool) (c : Char), c ∈ collapseWsAux b s →
      c = ' ' ∨ (c ∈ s ∧ isWs c = false) := by
  induction s with
  | nil => intro b c hc; simp [collapseWsAux] at hc
  | cons a t ih =>
    intro b c hc
    by_cases ha : isWs a = true
    · cases b with
      | true =>
        simp only [collapseWsAux, ha, if_true] at hc
        cases ih true c hc with
        | inl h => exact Or.inl h
        | inr h => exact Or.inr ⟨by simp [h.1], h.2⟩
      | false =>
        simp only [collapseWsAux, ha, if_true, Bool.false_eq_true, if_false,
          List.mem_cons] at hc
        cases hc with
        | inl h => exact Or.inl h
        | inr h =>
          cases ih true c h with
          | inl h2 => exact Or.inl h2
          | inr h2 => exact Or.inr ⟨by simp [h2.1], h2.2⟩
    · have ha' : isWs a = false := by simpa using ha
      simp only [collapseWsAux, ha', Bool.false_eq_true, if_false,
        List.mem_cons] at hc
      cases hc with
      | inl h => subst h; exact Or.inr ⟨by simp, ha'⟩
      | inr h =>
        cases ih false c h with
        | inl h2 => exact Or.inl h2
        | inr h2 => exact Or.inr ⟨by simp [h2.1], h2.2⟩

theorem collapseWsAux_chain (s : Str) :
    ∀ b : Bool,
      List.Chain' (fun a c => isWs a = false ∨ isWs c = false) (collapseWsAux b s) ∧
        (∀ c, (collapseWsAux true s).head? = some c → isWs c = false) := by
  induction s with
  | nil => intro b; simp [collapseWsAux]
  | cons a t ih =>
    intro b
    by_cases ha : isWs a = true
    · refine ⟨?_, ?_⟩
      · cases b with
        | true => simpa [collapseWsAux, ha] using (ih true).1
        | false =>
          simp only [collapseWsAux, ha, if_true, Bool.false_eq_true, if_false]
          rw [List.chain'_cons']
          refine ⟨?_, (ih true).1⟩
          intro y hy
          exact Or.inr ((ih true).2 y (by simpa using hy))
      · intro c hc
        simp only [collapseWsAux, ha, if_true] at hc
        exact (ih b).2 c hc
    · have ha' : isWs a = false := by simpa using ha
      refine ⟨?_, ?_⟩
      · simp only [collapseWsAux, ha', Bool.false_eq_true, if_false]
        rw [List.chain'_cons']
        exact ⟨fun y _ => Or.inl ha', (ih false).1⟩
      · intro c hc
        simp only [collapseWsAux, ha', Bool.false_eq_true, if_false,
          List.head?_cons, Option.some.injEq] at hc
        subst hc
        exact ha'

theorem nonWs_collapseWsAux (s : Str) :
    ∀ b : Bool, nonWs (collapseWsAux b s) = nonWs s := by
  induction s with
  | nil => intro b; rfl
  | cons a t ih =>
    intro b
    by_cases ha : isWs a = true
    · have hsp : isWs ' ' = true := by decide
      cases b with
      | true =>
        simp only [collapseWsAux, ha, if_true]
        rw [ih true]
        simp [nonWs, List.filter_cons, ha]
      | false =>
        simp only [collapseWsAux, ha, if_true, Bool.false_eq_true, if_false]
        rw [show nonWs (' ' :: collapseWsAux true t) = nonWs (collapseWsAux true t) by
          simp [nonWs, List.filter_cons, hsp]]
        rw [ih true]
        simp [nonWs, List.filter_cons, ha]
    · have ha' : isWs a = false := by simpa using ha
      simp only [collapseWsAux, ha', Bool.false_eq_true, if_false]
      rw [show nonWs (a :: collapseWsAux false t) = a :: nonWs (collapseWsAux false t) by
        simp [nonWs, List.filter_cons, ha']]
      rw [ih false]
      simp [nonWs, List.filter_cons, ha']

theorem replaceForbidden_clean (s : Str) :
    ∀ c ∈ replaceForbidden s, isForbidden c = false := by
  intro c hc
  rw [replaceForbidden, List.mem_map] at hc
  obtain ⟨a, _, ha⟩ := hc
  by_cases h : isForbidden a = true
  · rw [← ha, if_pos h]; decide
  · rw [← ha, if_neg (by simpa using h)]
    simpa using h

/-! ### The claims -/

/-- C1: for every input text containing at least one non-whitespace character
and every `num_parts ≥ 1`, concatenating the segments returned by
`split_text_into_parts` in order, reinserting the paragraph separator between
them, yields the original text's non-empty content with no characters lost or
duplicated: the sequence of non-whitespace characters — everything that the
per-segment trimming and separator normalization may not touch — is preserved
exactly. -/
theorem claim_C1_concat_preserves_content (text : Str) (np : Nat)
    (hnw : nonWs text ≠ []) (hnp : 1 ≤ np) :
    ∃ r, split_text_into_parts text np = some r ∧
      nonWs (joinSep sepNl2 r) = nonWs text := by
  refine ⟨_, split_main hnw hnp, ?_⟩
  rw [nonWs_joinSep nonWs_sepNl2]
  have hspec := splitCore_spec text np (tokensUsed text np) hnp
    (tokensUsed_ne_nil np hnw) (fun p hp => tokensUsed_elem hp)
  rw [hspec.1, joinNW_tokensUsed]

theorem claim_C1_witness :
    ∃ r, split_text_into_parts ['a', 'b', '\n', '\n', 'c'] 2 = some r ∧
      nonWs (joinSep sepNl2 r) = nonWs ['a', 'b', '\n', '\n', 'c'] :=
  claim_C1_concat_preserves_content ['a', 'b', '\n', '\n', 'c'] 2
    (by decide) (by decide)

/-- C2 as stated is false: `split_text_into_parts "abc" 2` returns
`["abc", ""]` — the fill-with-empty-strings fallback pads the list to exactly
`num_parts` entries, and the truncation `parts[:num_parts]` keeps all of
them, so an empty segment survives. -/
theorem claim_C2_counterexample :
    split_text_into_parts ['a', 'b', 'c'] 2 = some [['a', 'b', 'c'], []] ∧
      ¬ (∀ q ∈ [['a', 'b', 'c'], ([] : Str)], strip q ≠ []) := by decide

/-- C2 amended: for every text with at least one non-whitespace character and
every `num_parts ≥ 1`, every string returned by `split_text_into_parts` is
either the empty string (padding contributed by the fill-with-empty-strings
fallback, which does survive the final truncation) or non-empty after
trimming. -/
theorem claim_C2_amended_segments (text : Str) (np : Nat)
    (hnw : nonWs text ≠ []) (hnp : 1 ≤ np) :
    ∃ r, split_text_into_parts text np = some r ∧
      ∀ q ∈ r, q = [] ∨ strip q ≠ [] := by
  refine ⟨_, split_main hnw hnp, ?_⟩
  have hspec := splitCore_spec text np (tokensUsed text np) hnp
    (tokensUsed_ne_nil np hnw) (fun p hp => tokensUsed_elem hp)
  intro q hq
  cases hspec.2.2.2 q hq with
  | inl h => exact Or.inl h
  | inr h => exact Or.inr (strip_ne_nil_of_nonWs h)

theorem claim_C2_amended_witness :
    ∃ r, split_text_into_parts ['a', 'b', 'c'] 2 = some r ∧
      ∀ q ∈ r, q = [] ∨ strip q ≠ [] :=
  claim_C2_amended_segments ['a', 'b', 'c'] 2 (by decide) (by decide)

/-- C3: for every `text_length` and policy with non-zero
`max_chars_per_part`, `determine_num_parts` returns `1` when
`text_length ≤ max_chars_per_part` and otherwise
`max(min_parts, min(⌈text_length / max_chars_per_part⌉, max_parts))`, the
ceiling being that of the exact rational quotient. -/
theorem claim_C3_determine_formula (tl mc minP maxP : ℤ) (h : mc ≠ 0) :
    determine_num_parts tl mc minP maxP =
      some (if tl ≤ mc then 1
            else max minP (min ⌈(tl : ℚ) / (mc : ℚ)⌉ maxP)) :=
  determine_num_parts_formula tl mc minP maxP h

theorem claim_C3_witness :
    determine_num_parts 120000 50000 2 3 =
        some (if (120000 : ℤ) ≤ 50000 then 1
              else max 2 (min ⌈(120000 : ℚ) / (50000 : ℚ)⌉ 3)) ∧
      determine_num_parts 120000 50000 2 3 = some 3 :=
  ⟨claim_C3_determine_formula 120000 50000 2 3 (by decide), by decide⟩

/-- C4 as stated is false: with `text_length = 100000`,
`max_chars_per_part = 50000`, `min_parts = 5`, `max_parts = 3` (splitting
triggered, `max_parts < min_parts`), `determine_num_parts` returns `5`,
which exceeds the nominal `max_parts` ceiling of `3`. -/
theorem claim_C4_counterexample :
    determine_num_parts 100000 50000 5 3 = some 5 ∧ ¬ ((5 : ℤ) ≤ 3) := by
  decide

/-- C4 amended: whenever splitting is triggered
(`text_length > max_chars_per_part`, with a non-zero `max_chars_per_part`),
the returned value is at least `min_parts`; it is at most `max_parts`
provided `min_parts ≤ max_parts`, while for the inverted configuration
`max_parts < min_parts` the clamp returns exactly `min_parts`, exceeding
`max_parts`. -/
theorem claim_C4_amended_range (tl mc minP maxP : ℤ)
    (hmc : mc ≠ 0) (hgt : mc < tl) :
    ∃ k, determine_num_parts tl mc minP maxP = some k ∧ minP ≤ k ∧
      (minP ≤ maxP → k ≤ maxP) ∧ (maxP < minP → k = minP) := by
  unfold determine_num_parts
  rw [if_neg (by omega), if_neg hmc]
  refine ⟨_, rfl, le_max_left _ _, ?_, ?_⟩
  · intro hle
    exact max_le hle (min_le_right _ _)
  · intro hlt
    exact max_eq_left (le_trans (min_le_right _ _) (le_of_lt hlt))

theorem claim_C4_amended_witness :
    ∃ k, determine_num_parts 100000 50000 2 3 = some k ∧ (2 : ℤ) ≤ k ∧
      ((2 : ℤ) ≤ 3 → k ≤ 3) ∧ ((3 : ℤ) < 2 → k = 2) :=
  claim_C4_amended_range 100000 50000 2 3 (by decide) (by decide)

/-- C5 as stated is false: `split_text_into_parts " a" 1` returns `["a"]`,
not `[" a"]` — the single returned segment is the trimmed re-join of the
trimmed paragraph units, not the text unchanged. -/
theorem claim_C5_counterexample :
    split_text_into_parts [' ', 'a'] 1 = some [['a']] ∧
      ¬ split_text_into_parts [' ', 'a'] 1 = some [[' ', 'a']] := by decide

/-- C5 amended: for every text, `split_text_into_parts text 1` returns a
one-element list; its sole element is the text itself when the text is
whitespace-only, and otherwise the trimmed double-newline re-join of the
text's trimmed paragraph units (equal to the original text only when the
text is already in that normal form). -/
theorem claim_C5_amended_one_part (text : Str) :
    split_text_into_parts text 1 =
      some [if (strip text).isEmpty then text
            else strip (joinSep sepNl2 (paras2 text))] :=
  split_one text

/-- C6: for every text that is empty or consists only of whitespace and
every `num_parts`, `split_text_into_parts` returns the single-element
sequence containing the text itself, unchanged. -/
theorem claim_C6_whitespace_identity (text : Str) (np : Nat)
    (h : nonWs text = []) :
    split_text_into_parts text np = some [text] :=
  split_ws_eq np h

theorem claim_C6_witness :
    split_text_into_parts [' ', '\t'] 3 = some [[' ', '\t']] ∧
      split_text_into_parts [] 0 = some [[]] :=
  ⟨claim_C6_whitespace_identity [' ', '\t'] 3 (by decide),
    claim_C6_whitespace_identity [] 0 (by decide)⟩

/-- C7: the splitter tokenizes on the double-newline separator (trimming
fragments and dropping empty ones), and re-tokenizes on single newlines
exactly when the paragraph count is strictly smaller than `num_parts`. -/
theorem claim_C7_tokenization (t : Str) (np : Nat) :
    ((paras2 t).length < np → tokensUsed t np = paras1 t) ∧
      (np ≤ (paras2 t).length → tokensUsed t np = paras2 t) := by
  constructor
  · intro h
    rw [tokensUsed, if_pos h]
  · intro h
    rw [tokensUsed, if_neg (by omega)]

theorem claim_C7_witness :
    (paras2 ['a', '\n', '\n', 'b', '\n', 'c']).length = 2 ∧
      tokensUsed ['a', '\n', '\n', 'b', '\n', 'c'] 3 =
        paras1 ['a', '\n', '\n', 'b', '\n', 'c'] ∧
      paras1 ['a', '\n', '\n', 'b', '\n', 'c'] ≠
        paras2 ['a', '\n', '\n', 'b', '\n', 'c'] ∧
      split_text_into_parts ['a', '\n', '\n', 'b', '\n', 'c'] 3 =
        some [['a'], ['b', '\n', '\n', 'c'], []] :=
  ⟨by decide, (claim_C7_tokenization ['a', '\n', '\n', 'b', '\n', 'c'] 3).1 (by decide),
    by decide, by decide⟩

/-- C8: for every text and every `num_parts ≥ 1`, the sequence returned by
`split_text_into_parts` has length at most `num_parts`. -/
theorem claim_C8_length_le (text : Str) (np : Nat) (hnp : 1 ≤ np) :
    ∃ r, split_text_into_parts text np = some r ∧ r.length ≤ np := by
  by_cases hnw : nonWs text = []
  · exact ⟨[text], split_ws_eq np hnw, by simpa using hnp⟩
  · exact ⟨_, split_main hnw hnp,
      (splitCore_spec text np (tokensUsed text np) hnp
        (tokensUsed_ne_nil np hnw) (fun p hp => tokensUsed_elem hp)).2.1⟩

theorem claim_C8_witness :
    ∃ r, split_text_into_parts ['a', '\n', 'b'] 3 = some r ∧ r.length ≤ 3 :=
  claim_C8_length_le ['a', '\n', 'b'] 3 (by decide)

/-- C9: `sanitize_filename` replaces each forbidden character
`< > : " / \ | ? *` with an underscore, collapses every whitespace run to a
single space and trims the result: on `"Report: Final/Draft?"` it yields
`"Report_ Final_Draft_"`, and for every input the result contains no
forbidden character, contains no whitespace other than single (non-adjacent)
spaces, is trimmed (fixed by `strip`), and carries exactly the
non-whitespace characters of the forbidden-replaced input. -/
theorem claim_C9_sanitize :
    (sanitize_filename
        ['R', 'e', 'p', 'o', 'r', 't', ':', ' ', 'F', 'i', 'n', 'a', 'l', '/',
         'D', 'r', 'a', 'f', 't', '?'] =
      ['R', 'e', 'p', 'o', 'r', 't', '_', ' ', 'F', 'i', 'n', 'a', 'l', '_',
       'D', 'r', 'a', 'f', 't', '_']) ∧
    ∀ s : Str,
      (∀ c ∈ sanitize_filename s, isForbidden c = false) ∧
      (∀ c ∈ sanitize_filename s, isWs c = true → c = ' ') ∧
      List.Chain' (fun a b => isWs a = false ∨ isWs b = false)
        (sanitize_filename s) ∧
      strip (sanitize_filename s) = sanitize_filename s ∧
      nonWs (sanitize_filename s) = nonWs (replaceForbidden s) := by
  refine ⟨by decide, ?_⟩
  intro s
  have hsub : sanitize_filename s ⊆ collapseWsAux false (replaceForbidden s) :=
    (infix_strip (collapseWsAux false (replaceForbidden s))).subset
  refine ⟨?_, ?_, ?_, ?_, ?_⟩
  · intro c hc
    cases collapseWsAux_mem (replaceForbidden s) false c (hsub hc) with
    | inl h => subst h; decide
    | inr h => exact replaceForbidden_clean s c h.1
  · intro c hc hws
    cases collapseWsAux_mem (replaceForbidden s) false c (hsub hc) with
    | inl h => exact h
    | inr h =>
      rw [h.2] at hws
      exact absurd hws (by simp)
  · exact List.Chain'.infix ((collapseWsAux_chain (replaceForbidden s) false).1)
      (infix_strip (collapseWsAux false (replaceForbidden s)))
  · exact strip_strip (collapseWsAux false (replaceForbidden s))
  · show nonWs (strip (collapseWsAux false (replaceForbidden s))) = _
    rw [nonWs_strip, nonWs_collapseWsAux (replaceForbidden s) false]

theorem claim_C9_witness :
    strip (sanitize_filename ['a', ' ', ' ', 'b']) =
        sanitize_filename ['a', ' ', ' ', 'b'] ∧
      isForbidden 'b' = false :=
  ⟨(claim_C9_sanitize.2 ['a', ' ', ' ', 'b']).2.2.2.1,
    (claim_C9_sanitize.2 ['a', ' ', ' ', 'b']).1 'b' (by decide)⟩

/-- C10: `split_text_into_parts` divides by `num_parts` unguarded, so for
`num_parts = 0` and text with non-whitespace content the function fails with
a division-by-zero error (modelled as `none`) instead of returning a value;
under `num_parts ≥ 1` it always returns at least one segment. -/
theorem claim_C10_totality (text : Str) :
    (nonWs text ≠ [] → split_text_into_parts text 0 = none) ∧
      (∀ np, 1 ≤ np →
        ∃ r, split_text_into_parts text np = some r ∧ 1 ≤ r.length) := by
  refine ⟨fun hnw => split_zero hnw, ?_⟩
  intro np hnp
  by_cases hnw : nonWs text = []
  · exact ⟨[text], split_ws_eq np hnw, by simp⟩
  · exact ⟨_, split_main hnw hnp,
      (splitCore_spec text np (tokensUsed text np) hnp
        (tokensUsed_ne_nil np hnw) (fun p hp => tokensUsed_elem hp)).2.2.1⟩

theorem claim_C10_witness :
    split_text_into_parts ['x'] 0 = none ∧
      ∃ r, split_text_into_parts ['x'] 2 = some r ∧ 1 ≤ r.length :=
  ⟨(claim_C10_totality ['x']).1 (by decide),
    (claim_C10_totality ['x']).2 2 (by decide)⟩

end ExtractPdf
